import Mathlib

/-!
A verification model of the `rust-p2p-storage` chunk server
(`src/rust-p2p-storage/src/main.rs`).

The server keeps chunks in a sled database:
* `store_chunk` builds the key `format!("{}:{}", file_key, chunk_hash)`,
  serializes `StoredChunkValue { value: chunk_data }` to JSON bytes with
  `serde_json::to_vec`, inserts the pair and flushes;
* `retrieve_file_chunks` scans the prefix `format!("{}:", file_key)`,
  skipping entries whose key is not valid UTF-8, whose value does not
  deserialize as `StoredChunkValue`, or that the store itself reports as
  erroneous, and always answers `Ok` with the accumulated chunk list.

The embedding works at the byte level (`Bytes := List Nat`, one `Nat` per
byte): sled keys and values are byte strings, and the handlers move between
Rust `String`s and bytes via UTF-8.  The sled database is modelled as an
association list sorted strictly by byte-wise lexicographic key order,
which is the order in which sled iterates.
-/

namespace StorageServer

/-- Byte strings: sled keys and values (`IVec`).  Each entry is one byte. -/
abbrev Bytes := List Nat

/-! ### UTF-8 (Rust `String::as_bytes` / `String::from_utf8`) -/

/-- UTF-8 encoding of a unicode scalar value `n`, by the standard ranges.
Models how Rust lays out `String` bytes (`str::as_bytes`). -/
def encCodepoint (n : Nat) : List Nat :=
  if n < 0x80 then [n]
  else if n < 0x800 then [0xC0 + n / 0x40, 0x80 + n % 0x40]
  else if n < 0x10000 then
    [0xE0 + n / 0x1000, 0x80 + (n / 0x40) % 0x40, 0x80 + n % 0x40]
  else
    [0xF0 + n / 0x40000, 0x80 + (n / 0x1000) % 0x40,
     0x80 + (n / 0x40) % 0x40, 0x80 + n % 0x40]

/-- UTF-8 encoding of one character. -/
def encChar (c : Char) : List Nat := encCodepoint c.toNat

/-- The UTF-8 bytes of a string: Rust's `String::as_bytes`. -/
def strBytes (s : String) : Bytes := s.data.flatMap encChar

/-- Is `b` a UTF-8 continuation byte (`10xxxxxx`)? -/
def isCont (b : Nat) : Bool := 0x80 ≤ b && b < 0xC0

/-- Validating UTF-8 decoder: models Rust's `String::from_utf8`, which
accepts exactly the canonical encodings (no overlong forms, no surrogate
code points, scalar values below `0x110000`). -/
def utf8DecodeList : List Nat → Option (List Char)
  | [] => some []
  | [b0] =>
    if b0 < 0x80 then (utf8DecodeList []).map (fun cs => Char.ofNat b0 :: cs)
    else none
  | [b0, b1] =>
    if b0 < 0x80 then
      (utf8DecodeList [b1]).map (fun cs => Char.ofNat b0 :: cs)
    else if b0 < 0xE0 then
      if 0xC2 ≤ b0 && isCont b1 then
        (utf8DecodeList []).map
          (fun cs => Char.ofNat ((b0 - 0xC0) * 0x40 + (b1 - 0x80)) :: cs)
      else none
    else none
  | [b0, b1, b2] =>
    if b0 < 0x80 then
      (utf8DecodeList [b1, b2]).map (fun cs => Char.ofNat b0 :: cs)
    else if b0 < 0xE0 then
      if 0xC2 ≤ b0 && isCont b1 then
        (utf8DecodeList [b2]).map
          (fun cs => Char.ofNat ((b0 - 0xC0) * 0x40 + (b1 - 0x80)) :: cs)
      else none
    else if b0 < 0xF0 then
      let n := (b0 - 0xE0) * 0x1000 + (b1 - 0x80) * 0x40 + (b2 - 0x80)
      if isCont b1 && isCont b2 && decide (0x800 ≤ n) &&
          !(decide (0xD800 ≤ n) && decide (n < 0xE000)) then
        (utf8DecodeList []).map (fun cs => Char.ofNat n :: cs)
      else none
    else none
  | b0 :: b1 :: b2 :: b3 :: bs =>
    if b0 < 0x80 then
      (utf8DecodeList (b1 :: b2 :: b3 :: bs)).map (fun cs => Char.ofNat b0 :: cs)
    else if b0 < 0xE0 then
      if 0xC2 ≤ b0 && isCont b1 then
        (utf8DecodeList (b2 :: b3 :: bs)).map
          (fun cs => Char.ofNat ((b0 - 0xC0) * 0x40 + (b1 - 0x80)) :: cs)
      else none
    else if b0 < 0xF0 then
      let n := (b0 - 0xE0) * 0x1000 + (b1 - 0x80) * 0x40 + (b2 - 0x80)
      if isCont b1 && isCont b2 && decide (0x800 ≤ n) &&
          !(decide (0xD800 ≤ n) && decide (n < 0xE000)) then
        (utf8DecodeList (b3 :: bs)).map (fun cs => Char.ofNat n :: cs)
      else none
    else
      let n := (b0 - 0xF0) * 0x40000 + (b1 - 0x80) * 0x1000 +
        (b2 - 0x80) * 0x40 + (b3 - 0x80)
      if b0 < 0xF5 && isCont b1 && isCont b2 && isCont b3 &&
          decide (0x10000 ≤ n) && decide (n < 0x110000) then
        (utf8DecodeList bs).map (fun cs => Char.ofNat n :: cs)
      else none

/-- `String::from_utf8(bytes)` as an `Option`. -/
def utf8Decode? (bs : Bytes) : Option String :=
  (utf8DecodeList bs).map String.mk

/-! ### The JSON envelope (`StoredChunkValue` via serde_json) -/

/-- Lowercase hex digit, as serde_json prints `\u00XX` escapes. -/
def hexDigit (n : Nat) : Nat := if n < 10 then 0x30 + n else 0x57 + n

/-- How serde_json escapes one character inside a JSON string: `"` and `\`
get a backslash escape, control characters below `0x20` get their short
escape (`\b \t \n \f \r`) or `\u00XX`, everything else is emitted as its
raw UTF-8 bytes. -/
def jsonEscBytes (c : Char) : List Nat :=
  if c = Char.ofNat 0x22 then [0x5C, 0x22]
  else if c = Char.ofNat 0x5C then [0x5C, 0x5C]
  else if c.toNat = 0x08 then [0x5C, 0x62]
  else if c.toNat = 0x09 then [0x5C, 0x74]
  else if c.toNat = 0x0A then [0x5C, 0x6E]
  else if c.toNat = 0x0C then [0x5C, 0x66]
  else if c.toNat = 0x0D then [0x5C, 0x72]
  else if c.toNat < 0x20 then
    [0x5C, 0x75, 0x30, 0x30, hexDigit (c.toNat / 16), hexDigit (c.toNat % 16)]
  else encChar c

/-- `serde_json::to_vec(&StoredChunkValue { value: s })`: the compact bytes
of the object `\x7b"value":"<escaped s>"\x7d`.  The literal bytes below are
`\x7b`, `"`, `v`, `a`, `l`, `u`, `e`, `"`, `:`, `"` and `"`, `\x7d`. -/
def encodeStoredValue (s : String) : Bytes :=
  [0x7B, 0x22, 0x76, 0x61, 0x6C, 0x75, 0x65, 0x22, 0x3A, 0x22] ++
    s.data.flatMap jsonEscBytes ++ [0x22, 0x7D]

/-- JSON whitespace bytes. -/
def isWs (b : Nat) : Bool := b = 0x20 || b = 0x09 || b = 0x0A || b = 0x0D

/-- Drop leading JSON whitespace. -/
def skipWs (bs : Bytes) : Bytes := bs.dropWhile isWs

/-- Value of one hex digit byte (both cases accepted, as in JSON). -/
def hexVal? (b : Nat) : Option Nat :=
  if 0x30 ≤ b && b ≤ 0x39 then some (b - 0x30)
  else if 0x61 ≤ b && b ≤ 0x66 then some (b - 0x57)
  else if 0x41 ≤ b && b ≤ 0x46 then some (b - 0x37)
  else none

/-- The eight single-character JSON escapes: the byte after the backslash
maps to the byte it denotes. -/
def escSimple? (e : Nat) : Option Nat :=
  if e = 0x22 then some 0x22
  else if e = 0x5C then some 0x5C
  else if e = 0x2F then some 0x2F
  else if e = 0x62 then some 0x08
  else if e = 0x66 then some 0x0C
  else if e = 0x6E then some 0x0A
  else if e = 0x72 then some 0x0D
  else if e = 0x74 then some 0x09
  else none

/-- Consume one expected byte. -/
def expectByte (b : Nat) : Bytes → Option Bytes
  | [] => none
  | x :: rest => if x = b then some rest else none

/-- Consume four hex digits. -/
def hex4? : Bytes → Option (Nat × Bytes)
  | h1 :: h2 :: h3 :: h4 :: rest =>
    (hexVal? h1).bind fun d1 =>
    (hexVal? h2).bind fun d2 =>
    (hexVal? h3).bind fun d3 =>
    (hexVal? h4).bind fun d4 =>
    some (((d1 * 16 + d2) * 16 + d3) * 16 + d4, rest)
  | _ => none

/-- A `\uXXXX` escape (after the `u`): a non-surrogate scalar stands for
itself, a high surrogate must be followed by `\uYYYY` holding a low
surrogate and the pair combines, a lone low surrogate is rejected — as in
serde_json.  Produces the UTF-8 bytes of the denoted character. -/
def uniEsc? (bs : Bytes) : Option (List Nat × Bytes) :=
  (hex4? bs).bind fun p =>
    if p.1 < 0xD800 ∨ 0xE000 ≤ p.1 then some (encCodepoint p.1, p.2)
    else if p.1 < 0xDC00 then
      (expectByte 0x5C p.2).bind fun bsA =>
      (expectByte 0x75 bsA).bind fun bsB =>
      (hex4? bsB).bind fun q =>
      if 0xDC00 ≤ q.1 ∧ q.1 < 0xE000 then
        some (encCodepoint (0x10000 + (p.1 - 0xD800) * 0x400 + (q.1 - 0xDC00)), q.2)
      else none
    else none

/-- One token inside a JSON string body: the closing quote, or a run of
content bytes. -/
inductive StrTok : Type where
  | close : Bytes → StrTok
  | emit : List Nat → Bytes → StrTok

/-- An escape sequence (after the backslash), as a token. -/
def escTok? : Bytes → Option StrTok
  | [] => none
  | e :: bs2 =>
    match escSimple? e with
    | some u => some (StrTok.emit [u] bs2)
    | none =>
      if e = 0x75 then (uniEsc? bs2).map (fun r => StrTok.emit r.1 r.2)
      else none

/-- One step of parsing a JSON string body: the closing quote ends it, a
backslash starts an escape, raw control bytes are rejected, anything else
is a content byte. -/
def jsonStrStep : Bytes → Option StrTok
  | [] => none
  | b :: bs =>
    if b = 0x22 then some (StrTok.close bs)
    else if b = 0x5C then escTok? bs
    else if b < 0x20 then none
    else some (StrTok.emit [b] bs)

theorem expectByte_length {b : Nat} {bs rest : Bytes}
    (h : expectByte b bs = some rest) : rest.length + 1 = bs.length := by
  match bs with
  | [] => exact Option.noConfusion h
  | x :: tl =>
    rw [expectByte] at h
    by_cases hx : x = b
    · rw [if_pos hx] at h
      cases h
      rfl
    · rw [if_neg hx] at h
      exact Option.noConfusion h

theorem hex4?_length {bs : Bytes} {n : Nat} {rest : Bytes}
    (h : hex4? bs = some (n, rest)) : rest.length + 4 = bs.length := by
  match bs with
  | h1 :: h2 :: h3 :: h4 :: tl =>
    rw [hex4?] at h
    cases e1 : hexVal? h1 <;> rw [e1] at h <;> try exact Option.noConfusion h
    cases e2 : hexVal? h2 <;> rw [e2] at h <;> try exact Option.noConfusion h
    cases e3 : hexVal? h3 <;> rw [e3] at h <;> try exact Option.noConfusion h
    cases e4 : hexVal? h4 <;> rw [e4] at h <;> try exact Option.noConfusion h
    simp only [Option.some_bind] at h
    cases h
    rfl
  | [] => exact Option.noConfusion h
  | [h1] => exact Option.noConfusion h
  | [h1, h2] => exact Option.noConfusion h
  | [h1, h2, h3] => exact Option.noConfusion h

set_option maxRecDepth 4096 in
theorem uniEsc?_length {bs : Bytes} {out rest : Bytes}
    (h : uniEsc? bs = some (out, rest)) : rest.length + 4 ≤ bs.length := by
  rw [uniEsc?] at h
  cases hp : hex4? bs with
  | none => rw [hp] at h; exact Option.noConfusion h
  | some p =>
    obtain ⟨pn, pr⟩ := p
    rw [hp] at h
    simp only [Option.some_bind] at h
    have hlen := hex4?_length hp
    by_cases h1 : pn < 0xD800 ∨ 0xE000 ≤ pn
    · rw [if_pos h1] at h
      cases h
      omega
    · rw [if_neg h1] at h
      by_cases h2 : pn < 0xDC00
      · rw [if_pos h2] at h
        cases ha : expectByte 0x5C pr with
        | none => rw [ha] at h; exact Option.noConfusion h
        | some bsA =>
          rw [ha] at h
          simp only [Option.some_bind] at h
          cases hb : expectByte 0x75 bsA with
          | none => rw [hb] at h; exact Option.noConfusion h
          | some bsB =>
            rw [hb] at h
            simp only [Option.some_bind] at h
            cases hq : hex4? bsB with
            | none => rw [hq] at h; exact Option.noConfusion h
            | some q =>
              obtain ⟨qn, qr⟩ := q
              rw [hq] at h
              simp only [Option.some_bind] at h
              split at h
              · rw [Option.some.injEq, Prod.mk.injEq] at h
                have l1 := expectByte_length ha
                have l2 := expectByte_length hb
                have l3 := hex4?_length hq
                have hr : rest = qr := h.2.symm
                subst hr
                omega
              · exact Option.noConfusion h
      · rw [if_neg h2] at h
        exact Option.noConfusion h

theorem escTok?_emit_length {bs out rest : Bytes}
    (h : escTok? bs = some (StrTok.emit out rest)) :
    rest.length < bs.length := by
  match bs with
  | [] => exact Option.noConfusion h
  | e :: bs2 =>
    rw [escTok?] at h
    cases hs : escSimple? e with
    | some u =>
      rw [hs] at h
      cases h
      simp
    | none =>
      rw [hs] at h
      by_cases hu : e = 0x75
      · rw [if_pos hu] at h
        cases hv : uniEsc? bs2 with
        | none => rw [hv] at h; exact Option.noConfusion h
        | some r =>
          obtain ⟨ro, rr⟩ := r
          rw [hv] at h
          simp only [Option.map_some] at h
          cases h
          have := uniEsc?_length hv
          simp only [List.length_cons]
          omega
      · rw [if_neg hu] at h
        exact Option.noConfusion h

theorem jsonStrStep_emit_length {bs out rest : Bytes}
    (h : jsonStrStep bs = some (StrTok.emit out rest)) :
    rest.length < bs.length := by
  match bs with
  | [] => exact Option.noConfusion h
  | b :: tl =>
    rw [jsonStrStep] at h
    by_cases h22 : b = 0x22
    · rw [if_pos h22] at h
      exact StrTok.noConfusion (Option.some.inj h)
    · rw [if_neg h22] at h
      by_cases h5C : b = 0x5C
      · rw [if_pos h5C] at h
        have := escTok?_emit_length h
        simp only [List.length_cons]
        omega
      · rw [if_neg h5C] at h
        by_cases h20 : b < 0x20
        · rw [if_pos h20] at h
          exact Option.noConfusion h
        · rw [if_neg h20] at h
          cases h
          simp

/-- Parse the body of a JSON string literal (after its opening quote) into
the unescaped bytes of its content plus the bytes after the closing quote.
Escapes are translated to the UTF-8 bytes of the escaped character;
`\uXXXX` surrogate pairs are combined; raw control bytes are rejected,
as serde_json does. -/
def jsonStrBody (bs : Bytes) : Option (Bytes × Bytes) :=
  match hstep : jsonStrStep bs with
  | none => none
  | some (StrTok.close rest) => some ([], rest)
  | some (StrTok.emit out rest) =>
    (jsonStrBody rest).map (fun r => (out ++ r.1, r.2))
termination_by bs.length
decreasing_by exact jsonStrStep_emit_length hstep

/-- `serde_json::from_slice::<StoredChunkValue>(bs)`: accept the envelope
object whose single field `"value"` holds a JSON string, with optional
JSON whitespace and no trailing input.  (serde would also tolerate extra
unknown fields in the object; the stored envelopes produced by this
program never have any, and no claim depends on that corner.) -/
def decodeStoredValue? (bs : Bytes) : Option String :=
  (expectByte 0x7B (skipWs bs)).bind fun bs1 =>
  (expectByte 0x22 (skipWs bs1)).bind fun bs2 =>
  (jsonStrBody bs2).bind fun np =>
  if np.1 = strBytes "value" then
    (expectByte 0x3A (skipWs np.2)).bind fun bs4 =>
    (expectByte 0x22 (skipWs bs4)).bind fun bs5 =>
    (jsonStrBody bs5).bind fun vp =>
    (expectByte 0x7D (skipWs vp.2)).bind fun bs7 =>
    if skipWs bs7 = [] then utf8Decode? vp.1 else none
  else none

/-! ### The sled database -/

/-- Byte-wise lexicographic strict order on byte strings: the order in
which sled stores and iterates keys. -/
def bytesLt : Bytes → Bytes → Bool
  | _, [] => false
  | [], _ :: _ => true
  | a :: as, b :: bs => if a < b then true else if a = b then bytesLt as bs else false

/-- The sled tree, modelled as an association list of key/value byte
strings kept sorted strictly ascending by `bytesLt` on keys. -/
abbrev Db := List (Bytes × Bytes)

/-- Well-formed database: keys strictly ascending (hence duplicate-free).
Every database sled exposes satisfies this; sled iterates in this order. -/
def DbWF (db : Db) : Prop :=
  List.Pairwise (fun a b => bytesLt a.1 b.1 = true) db

/-- `Db::insert`: put `(k, v)`, overwriting any existing value at `k`,
keeping the list sorted. -/
def dbInsert : Db → Bytes → Bytes → Db
  | [], k, v => [(k, v)]
  | (k0, v0) :: rest, k, v =>
    if bytesLt k k0 then (k, v) :: (k0, v0) :: rest
    else if k = k0 then (k, v) :: rest
    else (k0, v0) :: dbInsert rest k v

/-- `Db::get`: the value stored at key `k`, if any. -/
def dbLookup : Db → Bytes → Option Bytes
  | [], _ => none
  | (k0, v0) :: rest, k => if k = k0 then some v0 else dbLookup rest k

/-- `Db::scan_prefix(p)`: every entry whose key starts with the byte
string `p`, in ascending key order (the database is sorted, and filtering
preserves its order). -/
def prefixScan (db : Db) (p : Bytes) : List (Bytes × Bytes) :=
  db.filter (fun e => p.isPrefixOf e.1)

/-! ### The handlers -/

/-- One element of the `chunks` array of the response. -/
structure Chunk where
  key : String
  value : String
deriving DecidableEq

/-- The body answered by `retrieve_file_chunks`. -/
structure FileChunksResponse where
  file_key : String
  chunks : List Chunk
deriving DecidableEq

/-- The composite storage key `format!("{}:{}", file_key, chunk_hash)`. -/
def storeKey (fileKey chunkHash : String) : String :=
  fileKey ++ ":" ++ chunkHash

/-- The bytes of the composite key, as passed to `Db::insert`. -/
def storeKeyBytes (fileKey chunkHash : String) : Bytes :=
  strBytes (storeKey fileKey chunkHash)

/-- The database after the successful insert performed by `store_chunk`:
key `fileKey:chunkHash`, value the serialized envelope. -/
def writeChunkDb (db : Db) (fileKey chunkHash chunkData : String) : Db :=
  dbInsert db (storeKeyBytes fileKey chunkHash) (encodeStoredValue chunkData)

/-- HTTP 200. -/
def statusOK : Nat := 200

/-- HTTP 500. -/
def statusInternalServerError : Nat := 500

/-- The `store_chunk` handler.  Serialization of the envelope cannot fail
(its error arm in the source is dead code for string data), so the
fallible steps are the sled `insert` and the `flush_async`; their
outcomes are passed in as the oracle booleans `insertOk` and `flushOk`.
Returns the database after the call and the HTTP status answered. -/
def store_chunk (db : Db) (fileKey chunkHash chunkData : String)
    (insertOk flushOk : Bool) : Db × Nat :=
  if insertOk then
    let db1 := writeChunkDb db fileKey chunkHash chunkData
    if flushOk then (db1, statusOK) else (db1, statusInternalServerError)
  else (db, statusInternalServerError)

/-- One item yielded by the sled prefix-scan iterator: `Ok (key, value)`
or a store-level error. -/
abbrev ScanResult := Except Unit (Bytes × Bytes)

/-- The scan loop of `retrieve_file_chunks`: store-level errors are
skipped (`Err(_) => continue`), keys that are not valid UTF-8 are skipped,
values that do not deserialize are skipped, every other entry contributes
one `Chunk`. -/
def chunksOfScan : List ScanResult → List Chunk
  | [] => []
  | Except.error _ :: rest => chunksOfScan rest
  | Except.ok (kb, vb) :: rest =>
    match utf8Decode? kb with
    | none => chunksOfScan rest
    | some ks =>
      match decodeStoredValue? vb with
      | none => chunksOfScan rest
      | some vs => ⟨ks, vs⟩ :: chunksOfScan rest

/-- `retrieve_file_chunks` as a function of the raw scan results: the
handler's only exit is `Ok(Json(response))`. -/
def retrieveFromResults (fileKey : String) (results : List ScanResult) :
    Except Nat FileChunksResponse :=
  Except.ok ⟨fileKey, chunksOfScan results⟩

/-- The `retrieve_file_chunks` handler on a well-formed database, whose
scan yields every prefix-matching entry in order, error-free. -/
def retrieve_file_chunks (db : Db) (fileKey : String) :
    Except Nat FileChunksResponse :=
  retrieveFromResults fileKey
    ((prefixScan db (strBytes (fileKey ++ ":"))).map Except.ok)

/-! ### UTF-8 codec lemmas -/

theorem char_toNat_ofNat {n : Nat} (h : Nat.isValidChar n) :
    (Char.ofNat n).toNat = n := by
  simp [Char.ofNat, dif_pos h]
  rfl

/-- Decoder step: one ASCII byte. -/
theorem utf8DecodeList_cons1 (b0 : Nat) (bs : List Nat) (h : b0 < 0x80) :
    utf8DecodeList (b0 :: bs) =
      (utf8DecodeList bs).map (fun cs => Char.ofNat b0 :: cs) := by
  match bs with
  | [] => simp only [utf8DecodeList, if_pos h]
  | [b1] => simp only [utf8DecodeList, if_pos h]
  | [b1, b2] => simp only [utf8DecodeList, if_pos h]
  | b1 :: b2 :: b3 :: rest => simp only [utf8DecodeList, if_pos h]

/-- Decoder step: a two-byte sequence. -/
theorem utf8DecodeList_cons2 (b0 b1 : Nat) (bs : List Nat)
    (h0 : 0xC2 ≤ b0) (h0' : b0 < 0xE0) (h1 : isCont b1 = true) :
    utf8DecodeList (b0 :: b1 :: bs) =
      (utf8DecodeList bs).map
        (fun cs => Char.ofNat ((b0 - 0xC0) * 0x40 + (b1 - 0x80)) :: cs) := by
  have hn : ¬ b0 < 0x80 := by omega
  have hc : (decide (0xC2 ≤ b0) && isCont b1) = true := by
    simp [h1, decide_eq_true h0]
  match bs with
  | [] => simp [utf8DecodeList, hn, h0', hc]
  | [b2] => simp [utf8DecodeList, hn, h0', hc]
  | b2 :: b3 :: rest => simp [utf8DecodeList, hn, h0', hc]

/-- Decoder step: a three-byte sequence. -/
theorem utf8DecodeList_cons3 (b0 b1 b2 : Nat) (bs : List Nat)
    (h0 : 0xE0 ≤ b0) (h0' : b0 < 0xF0)
    (h1 : isCont b1 = true) (h2 : isCont b2 = true)
    (hlo : 0x800 ≤ (b0 - 0xE0) * 0x1000 + (b1 - 0x80) * 0x40 + (b2 - 0x80))
    (hsur : ¬ (0xD800 ≤ (b0 - 0xE0) * 0x1000 + (b1 - 0x80) * 0x40 + (b2 - 0x80) ∧
      (b0 - 0xE0) * 0x1000 + (b1 - 0x80) * 0x40 + (b2 - 0x80) < 0xE000)) :
    utf8DecodeList (b0 :: b1 :: b2 :: bs) =
      (utf8DecodeList bs).map
        (fun cs =>
          Char.ofNat ((b0 - 0xE0) * 0x1000 + (b1 - 0x80) * 0x40 + (b2 - 0x80)) :: cs) := by
  have hn : ¬ b0 < 0x80 := by omega
  have hn2 : ¬ b0 < 0xE0 := by omega
  have hc : (isCont b1 && isCont b2 &&
      decide (0x800 ≤ (b0 - 0xE0) * 0x1000 + (b1 - 0x80) * 0x40 + (b2 - 0x80)) &&
      !(decide (0xD800 ≤ (b0 - 0xE0) * 0x1000 + (b1 - 0x80) * 0x40 + (b2 - 0x80)) &&
        decide ((b0 - 0xE0) * 0x1000 + (b1 - 0x80) * 0x40 + (b2 - 0x80) < 0xE000))) = true := by
    have hff : (decide (0xD800 ≤ (b0 - 0xE0) * 0x1000 + (b1 - 0x80) * 0x40 + (b2 - 0x80)) &&
        decide ((b0 - 0xE0) * 0x1000 + (b1 - 0x80) * 0x40 + (b2 - 0x80) < 0xE000)) = false := by
      rcases Decidable.not_and_iff_or_not.mp hsur with hs | hs
      · simp [decide_eq_false hs]
      · simp [decide_eq_false hs]
    simp [h1, h2, decide_eq_true hlo, hff]
  match bs with
  | [] => simp only [utf8DecodeList, if_neg hn, if_neg hn2, if_pos h0', hc, if_true]
  | b3 :: rest => simp only [utf8DecodeList, if_neg hn, if_neg hn2, if_pos h0', hc, if_true]

/-- Decoder step: a four-byte sequence. -/
theorem utf8DecodeList_cons4 (b0 b1 b2 b3 : Nat) (bs : List Nat)
    (h0 : 0xF0 ≤ b0) (h0' : b0 < 0xF5)
    (h1 : isCont b1 = true) (h2 : isCont b2 = true) (h3 : isCont b3 = true)
    (hlo : 0x10000 ≤ (b0 - 0xF0) * 0x40000 + (b1 - 0x80) * 0x1000 +
      (b2 - 0x80) * 0x40 + (b3 - 0x80))
    (hhi : (b0 - 0xF0) * 0x40000 + (b1 - 0x80) * 0x1000 +
      (b2 - 0x80) * 0x40 + (b3 - 0x80) < 0x110000) :
    utf8DecodeList (b0 :: b1 :: b2 :: b3 :: bs) =
      (utf8DecodeList bs).map
        (fun cs =>
          Char.ofNat ((b0 - 0xF0) * 0x40000 + (b1 - 0x80) * 0x1000 +
            (b2 - 0x80) * 0x40 + (b3 - 0x80)) :: cs) := by
  have hn : ¬ b0 < 0x80 := by omega
  have hn2 : ¬ b0 < 0xE0 := by omega
  have hn3 : ¬ b0 < 0xF0 := by omega
  have hc : (decide (b0 < 0xF5) && isCont b1 && isCont b2 && isCont b3 &&
      decide (0x10000 ≤ (b0 - 0xF0) * 0x40000 + (b1 - 0x80) * 0x1000 +
        (b2 - 0x80) * 0x40 + (b3 - 0x80)) &&
      decide ((b0 - 0xF0) * 0x40000 + (b1 - 0x80) * 0x1000 +
        (b2 - 0x80) * 0x40 + (b3 - 0x80) < 0x110000)) = true := by
    simp [h1, h2, h3, decide_eq_true h0', decide_eq_true hlo, decide_eq_true hhi]
  simp only [utf8DecodeList, if_neg hn, if_neg hn2, if_neg hn3, hc, if_true]

theorem utf8DecodeList_encChar (c : Char) (bs : List Nat) :
    utf8DecodeList (encChar c ++ bs) =
      (utf8DecodeList bs).map (fun cs => c :: cs) := by
  have hv : Nat.isValidChar c.toNat := c.valid
  have hofNat : Char.ofNat c.toNat = c := Char.ofNat_toNat c
  have hv' : c.toNat < 0x110000 := by
    rcases hv with h | ⟨_, h⟩ <;> omega
  have hnosur : ¬ (0xD800 ≤ c.toNat ∧ c.toNat < 0xE000) := by
    rcases hv with h | ⟨h, _⟩ <;> omega
  rw [encChar, encCodepoint]
  by_cases h1 : c.toNat < 0x80
  · rw [if_pos h1]
    rw [List.cons_append, List.nil_append, utf8DecodeList_cons1 _ _ h1, hofNat]
  by_cases h2 : c.toNat < 0x800
  · rw [if_neg h1, if_pos h2]
    have hdm : (c.toNat / 0x40) * 0x40 + c.toNat % 0x40 = c.toNat := by
      omega
    have hcont : isCont (0x80 + c.toNat % 0x40) = true := by
      simp only [isCont, Bool.and_eq_true, decide_eq_true_eq]
      omega
    rw [List.cons_append, List.cons_append, List.nil_append,
      utf8DecodeList_cons2 _ _ _ (by omega) (by omega) hcont]
    have : (0xC0 + c.toNat / 0x40 - 0xC0) * 0x40 + (0x80 + c.toNat % 0x40 - 0x80)
        = c.toNat := by omega
    rw [this, hofNat]
  by_cases h3 : c.toNat < 0x10000
  · rw [if_neg h1, if_neg h2, if_pos h3]
    have hdd : (c.toNat / 0x40) / 0x40 = c.toNat / 0x1000 := by
      omega
    have hdm1 : (c.toNat / 0x40) * 0x40 + c.toNat % 0x40 = c.toNat := by
      omega
    have hdm2 : ((c.toNat / 0x40) / 0x40) * 0x40 + (c.toNat / 0x40) % 0x40
        = c.toNat / 0x40 := by omega
    have hval : (0xE0 + c.toNat / 0x1000 - 0xE0) * 0x1000 +
        (0x80 + (c.toNat / 0x40) % 0x40 - 0x80) * 0x40 +
        (0x80 + c.toNat % 0x40 - 0x80) = c.toNat := by omega
    have hc1 : isCont (0x80 + (c.toNat / 0x40) % 0x40) = true := by
      simp only [isCont, Bool.and_eq_true, decide_eq_true_eq]
      omega
    have hc2 : isCont (0x80 + c.toNat % 0x40) = true := by
      simp only [isCont, Bool.and_eq_true, decide_eq_true_eq]
      omega
    rw [List.cons_append, List.cons_append, List.cons_append, List.nil_append,
      utf8DecodeList_cons3 _ _ _ _ (by omega) (by omega) hc1 hc2
        (by omega) (by rw [hval]; exact hnosur)]
    rw [hval, hofNat]
  · rw [if_neg h1, if_neg h2, if_neg h3]
    have hdd1 : (c.toNat / 0x40) / 0x40 = c.toNat / 0x1000 := by
      omega
    have hdd2 : (c.toNat / 0x1000) / 0x40 = c.toNat / 0x40000 := by
      omega
    have hdm1 : (c.toNat / 0x40) * 0x40 + c.toNat % 0x40 = c.toNat := by
      omega
    have hdm2 : ((c.toNat / 0x40) / 0x40) * 0x40 + (c.toNat / 0x40) % 0x40
        = c.toNat / 0x40 := by omega
    have hdm3 : ((c.toNat / 0x1000) / 0x40) * 0x40 + (c.toNat / 0x1000) % 0x40
        = c.toNat / 0x1000 := by omega
    have hval : (0xF0 + c.toNat / 0x40000 - 0xF0) * 0x40000 +
        (0x80 + (c.toNat / 0x1000) % 0x40 - 0x80) * 0x1000 +
        (0x80 + (c.toNat / 0x40) % 0x40 - 0x80) * 0x40 +
        (0x80 + c.toNat % 0x40 - 0x80) = c.toNat := by omega
    have hc1 : isCont (0x80 + (c.toNat / 0x1000) % 0x40) = true := by
      simp only [isCont, Bool.and_eq_true, decide_eq_true_eq]
      omega
    have hc2 : isCont (0x80 + (c.toNat / 0x40) % 0x40) = true := by
      simp only [isCont, Bool.and_eq_true, decide_eq_true_eq]
      omega
    have hc3 : isCont (0x80 + c.toNat % 0x40) = true := by
      simp only [isCont, Bool.and_eq_true, decide_eq_true_eq]
      omega
    rw [List.cons_append, List.cons_append, List.cons_append, List.cons_append,
      List.nil_append,
      utf8DecodeList_cons4 _ _ _ _ _ (by omega) (by omega) hc1 hc2 hc3
        (by omega) (by omega)]
    rw [hval, hofNat]

/-- Decoding a UTF-8 encoded character list followed by anything. -/
theorem utf8DecodeList_flatMap (cs : List Char) (bs : List Nat) :
    utf8DecodeList (cs.flatMap encChar ++ bs) =
      (utf8DecodeList bs).map (fun ds => cs ++ ds) := by
  induction cs with
  | nil => simp
  | cons c cs ih =>
    rw [List.flatMap_cons, List.append_assoc, utf8DecodeList_encChar, ih,
      Option.map_map]
    rfl

/-- Round trip: the decoder inverts the encoder on every string. -/
theorem utf8Decode?_strBytes (s : String) : utf8Decode? (strBytes s) = some s := by
  have h := utf8DecodeList_flatMap s.data []
  rw [List.append_nil] at h
  rw [utf8Decode?, strBytes, h]
  cases s
  simp [utf8DecodeList]

/-- Decoded prefix: bytes that start with an encoded string decode to a
string with that prefix. -/
theorem utf8Decode?_strBytes_append (p : String) (bs : List Nat) :
    utf8Decode? (strBytes p ++ bs) =
      (utf8Decode? bs).map (fun t => p ++ t) := by
  rw [utf8Decode?, utf8Decode?, strBytes, utf8DecodeList_flatMap p.data bs,
    Option.map_map, Option.map_map]
  have hfun : (String.mk ∘ fun ds => p.data ++ ds) =
      ((fun t => p ++ t) ∘ String.mk) := by
    funext ds
    show String.mk (p.data ++ ds) = p ++ String.mk ds
    cases p
    rfl
  rw [hfun]

/-- Re-encoding a decoded ASCII byte. -/
theorem encChar_ofNat_ascii (b0 : Nat) (h : b0 < 0x80) :
    encChar (Char.ofNat b0) = [b0] := by
  have hv : Nat.isValidChar b0 := Or.inl (by omega)
  rw [encChar, char_toNat_ofNat hv, encCodepoint, if_pos h]

/-- Re-encoding a decoded two-byte sequence. -/
theorem encChar_ofNat2 (b0 b1 : Nat)
    (h0 : 0xC2 ≤ b0) (h0' : b0 < 0xE0) (h1 : isCont b1 = true) :
    encChar (Char.ofNat ((b0 - 0xC0) * 0x40 + (b1 - 0x80))) = [b0, b1] := by
  have hc : 0x80 ≤ b1 ∧ b1 < 0xC0 := by
    simpa [isCont, Bool.and_eq_true, decide_eq_true_eq] using h1
  have hv : Nat.isValidChar ((b0 - 0xC0) * 0x40 + (b1 - 0x80)) :=
    Or.inl (by omega)
  rw [encChar, char_toNat_ofNat hv, encCodepoint,
    if_neg (by omega), if_pos (by omega)]
  have e1 : 0xC0 + ((b0 - 0xC0) * 0x40 + (b1 - 0x80)) / 0x40 = b0 := by omega
  have e2 : 0x80 + ((b0 - 0xC0) * 0x40 + (b1 - 0x80)) % 0x40 = b1 := by omega
  rw [e1, e2]

/-- Re-encoding a decoded three-byte sequence. -/
theorem encChar_ofNat3 (b0 b1 b2 : Nat)
    (h0 : 0xE0 ≤ b0) (h0' : b0 < 0xF0)
    (h1 : isCont b1 = true) (h2 : isCont b2 = true)
    (hlo : 0x800 ≤ (b0 - 0xE0) * 0x1000 + (b1 - 0x80) * 0x40 + (b2 - 0x80))
    (hsur : ¬ (0xD800 ≤ (b0 - 0xE0) * 0x1000 + (b1 - 0x80) * 0x40 + (b2 - 0x80) ∧
      (b0 - 0xE0) * 0x1000 + (b1 - 0x80) * 0x40 + (b2 - 0x80) < 0xE000)) :
    encChar (Char.ofNat ((b0 - 0xE0) * 0x1000 + (b1 - 0x80) * 0x40 + (b2 - 0x80)))
      = [b0, b1, b2] := by
  have hc1 : 0x80 ≤ b1 ∧ b1 < 0xC0 := by
    simpa [isCont, Bool.and_eq_true, decide_eq_true_eq] using h1
  have hc2 : 0x80 ≤ b2 ∧ b2 < 0xC0 := by
    simpa [isCont, Bool.and_eq_true, decide_eq_true_eq] using h2
  have hhi : (b0 - 0xE0) * 0x1000 + (b1 - 0x80) * 0x40 + (b2 - 0x80) < 0x10000 := by
    omega
  have hv : Nat.isValidChar ((b0 - 0xE0) * 0x1000 + (b1 - 0x80) * 0x40 + (b2 - 0x80)) := by
    rcases Decidable.not_and_iff_or_not.mp hsur with hs | hs
    · exact Or.inl (by omega)
    · exact Or.inr ⟨by omega, by omega⟩
  rw [encChar, char_toNat_ofNat hv, encCodepoint,
    if_neg (by omega), if_neg (by omega), if_pos hhi]
  have e1 : 0xE0 + ((b0 - 0xE0) * 0x1000 + (b1 - 0x80) * 0x40 + (b2 - 0x80)) / 0x1000
      = b0 := by omega
  have e2 : 0x80 + (((b0 - 0xE0) * 0x1000 + (b1 - 0x80) * 0x40 + (b2 - 0x80)) / 0x40) % 0x40
      = b1 := by omega
  have e3 : 0x80 + ((b0 - 0xE0) * 0x1000 + (b1 - 0x80) * 0x40 + (b2 - 0x80)) % 0x40
      = b2 := by omega
  rw [e1, e2, e3]

/-- Re-encoding a decoded four-byte sequence. -/
theorem encChar_ofNat4 (b0 b1 b2 b3 : Nat)
    (h0 : 0xF0 ≤ b0) (h0' : b0 < 0xF5)
    (h1 : isCont b1 = true) (h2 : isCont b2 = true) (h3 : isCont b3 = true)
    (hlo : 0x10000 ≤ (b0 - 0xF0) * 0x40000 + (b1 - 0x80) * 0x1000 +
      (b2 - 0x80) * 0x40 + (b3 - 0x80))
    (hhi : (b0 - 0xF0) * 0x40000 + (b1 - 0x80) * 0x1000 +
      (b2 - 0x80) * 0x40 + (b3 - 0x80) < 0x110000) :
    encChar (Char.ofNat ((b0 - 0xF0) * 0x40000 + (b1 - 0x80) * 0x1000 +
      (b2 - 0x80) * 0x40 + (b3 - 0x80))) = [b0, b1, b2, b3] := by
  have hc1 : 0x80 ≤ b1 ∧ b1 < 0xC0 := by
    simpa [isCont, Bool.and_eq_true, decide_eq_true_eq] using h1
  have hc2 : 0x80 ≤ b2 ∧ b2 < 0xC0 := by
    simpa [isCont, Bool.and_eq_true, decide_eq_true_eq] using h2
  have hc3 : 0x80 ≤ b3 ∧ b3 < 0xC0 := by
    simpa [isCont, Bool.and_eq_true, decide_eq_true_eq] using h3
  have hv : Nat.isValidChar ((b0 - 0xF0) * 0x40000 + (b1 - 0x80) * 0x1000 +
      (b2 - 0x80) * 0x40 + (b3 - 0x80)) := Or.inr ⟨by omega, by omega⟩
  rw [encChar, char_toNat_ofNat hv, encCodepoint,
    if_neg (by omega), if_neg (by omega), if_neg (by omega)]
  have e1 : 0xF0 + ((b0 - 0xF0) * 0x40000 + (b1 - 0x80) * 0x1000 +
      (b2 - 0x80) * 0x40 + (b3 - 0x80)) / 0x40000 = b0 := by omega
  have e2 : 0x80 + (((b0 - 0xF0) * 0x40000 + (b1 - 0x80) * 0x1000 +
      (b2 - 0x80) * 0x40 + (b3 - 0x80)) / 0x1000) % 0x40 = b1 := by omega
  have e3 : 0x80 + (((b0 - 0xF0) * 0x40000 + (b1 - 0x80) * 0x1000 +
      (b2 - 0x80) * 0x40 + (b3 - 0x80)) / 0x40) % 0x40 = b2 := by omega
  have e4 : 0x80 + ((b0 - 0xF0) * 0x40000 + (b1 - 0x80) * 0x1000 +
      (b2 - 0x80) * 0x40 + (b3 - 0x80)) % 0x40 = b3 := by omega
  rw [e1, e2, e3, e4]

/-- Canonicity: whatever the decoder accepts re-encodes to the very same
bytes (the decoder only accepts canonical UTF-8). -/
theorem flatMap_encChar_of_decode (bs : Bytes) :
    ∀ cs, utf8DecodeList bs = some cs → cs.flatMap encChar = bs := by
  induction bs using utf8DecodeList.induct with
  | case1 =>
    intro cs h
    rw [utf8DecodeList] at h
    cases h
    rfl
  | case2 b0 hlt ih =>
    intro cs h
    rw [utf8DecodeList_cons1 _ _ hlt] at h
    obtain ⟨cs2, hd, rfl⟩ := Option.map_eq_some'.mp h
    rw [List.flatMap_cons, encChar_ofNat_ascii _ hlt, ih cs2 hd]
    simp
  | case3 b0 hn =>
    intro cs h
    simp only [utf8DecodeList, if_neg hn] at h
    exact Option.noConfusion h
  | case4 b0 b1 hlt ih =>
    intro cs h
    rw [utf8DecodeList_cons1 _ _ hlt] at h
    obtain ⟨cs2, hd, rfl⟩ := Option.map_eq_some'.mp h
    rw [List.flatMap_cons, encChar_ofNat_ascii _ hlt, ih cs2 hd]
    simp
  | case5 b0 b1 hn hlt hcond ih =>
    intro cs h
    have hbc : 0xC2 ≤ b0 ∧ isCont b1 = true := by
      simpa only [Bool.and_eq_true, decide_eq_true_eq] using hcond
    have hb : 0xC2 ≤ b0 := hbc.1
    have hcont : isCont b1 = true := hbc.2
    rw [utf8DecodeList_cons2 _ _ _ hb hlt hcont] at h
    obtain ⟨cs2, hd, rfl⟩ := Option.map_eq_some'.mp h
    rw [List.flatMap_cons, encChar_ofNat2 _ _ hb hlt hcont, ih cs2 hd]
    simp
  | case6 b0 b1 hn hlt hcond =>
    intro cs h
    simp only [utf8DecodeList, if_neg hn, if_pos hlt, if_neg hcond] at h
    exact Option.noConfusion h
  | case7 b0 b1 hn hn2 =>
    intro cs h
    simp only [utf8DecodeList, if_neg hn, if_neg hn2] at h
    exact Option.noConfusion h
  | case8 b0 b1 b2 hlt ih =>
    intro cs h
    rw [utf8DecodeList_cons1 _ _ hlt] at h
    obtain ⟨cs2, hd, rfl⟩ := Option.map_eq_some'.mp h
    rw [List.flatMap_cons, encChar_ofNat_ascii _ hlt, ih cs2 hd]
    simp
  | case9 b0 b1 b2 hn hlt hcond ih =>
    intro cs h
    have hbc : 0xC2 ≤ b0 ∧ isCont b1 = true := by
      simpa only [Bool.and_eq_true, decide_eq_true_eq] using hcond
    have hb : 0xC2 ≤ b0 := hbc.1
    have hcont : isCont b1 = true := hbc.2
    rw [utf8DecodeList_cons2 _ _ _ hb hlt hcont] at h
    obtain ⟨cs2, hd, rfl⟩ := Option.map_eq_some'.mp h
    rw [List.flatMap_cons, encChar_ofNat2 _ _ hb hlt hcont, ih cs2 hd]
    simp
  | case10 b0 b1 b2 hn hlt hcond =>
    intro cs h
    simp only [utf8DecodeList, if_neg hn, if_pos hlt, if_neg hcond] at h
    exact Option.noConfusion h
  | case11 b0 b1 b2 hn hn2 hlt n hcond ih =>
    intro cs h
    have hnv : n = (b0 - 0xE0) * 0x1000 + (b1 - 0x80) * 0x40 + (b2 - 0x80) := rfl
    rw [hnv] at hcond
    obtain ⟨⟨⟨h1, h2⟩, h3⟩, h4⟩ := by
      simpa only [Bool.and_eq_true, Bool.not_eq_true', Bool.and_eq_false_iff,
        decide_eq_true_eq, decide_eq_false_iff_not] using hcond
    have hsur : ¬ (0xD800 ≤ (b0 - 0xE0) * 0x1000 + (b1 - 0x80) * 0x40 + (b2 - 0x80) ∧
        (b0 - 0xE0) * 0x1000 + (b1 - 0x80) * 0x40 + (b2 - 0x80) < 0xE000) := by
      rcases h4 with h4 | h4 <;> omega
    rw [utf8DecodeList_cons3 _ _ _ _ (by omega) hlt h1 h2 h3 hsur] at h
    obtain ⟨cs2, hd, rfl⟩ := Option.map_eq_some'.mp h
    rw [List.flatMap_cons, encChar_ofNat3 _ _ _ (by omega) hlt h1 h2 h3 hsur, ih cs2 hd]
    simp
  | case12 b0 b1 b2 hn hn2 hlt n hcond =>
    intro cs h
    simp only [utf8DecodeList, if_neg hn, if_neg hn2, if_pos hlt, if_neg hcond] at h
    exact Option.noConfusion h
  | case13 b0 b1 b2 hn hn2 hn3 =>
    intro cs h
    simp only [utf8DecodeList, if_neg hn, if_neg hn2, if_neg hn3] at h
    exact Option.noConfusion h
  | case14 b0 b1 b2 b3 bs hlt ih =>
    intro cs h
    rw [utf8DecodeList_cons1 _ _ hlt] at h
    obtain ⟨cs2, hd, rfl⟩ := Option.map_eq_some'.mp h
    rw [List.flatMap_cons, encChar_ofNat_ascii _ hlt, ih cs2 hd]
    simp
  | case15 b0 b1 b2 b3 bs hn hlt hcond ih =>
    intro cs h
    have hbc : 0xC2 ≤ b0 ∧ isCont b1 = true := by
      simpa only [Bool.and_eq_true, decide_eq_true_eq] using hcond
    have hb : 0xC2 ≤ b0 := hbc.1
    have hcont : isCont b1 = true := hbc.2
    rw [utf8DecodeList_cons2 _ _ _ hb hlt hcont] at h
    obtain ⟨cs2, hd, rfl⟩ := Option.map_eq_some'.mp h
    rw [List.flatMap_cons, encChar_ofNat2 _ _ hb hlt hcont, ih cs2 hd]
    simp
  | case16 b0 b1 b2 b3 bs hn hlt hcond =>
    intro cs h
    simp only [utf8DecodeList, if_neg hn, if_pos hlt, if_neg hcond] at h
    exact Option.noConfusion h
  | case17 b0 b1 b2 b3 bs hn hn2 hlt n hcond ih =>
    intro cs h
    have hnv : n = (b0 - 0xE0) * 0x1000 + (b1 - 0x80) * 0x40 + (b2 - 0x80) := rfl
    rw [hnv] at hcond
    obtain ⟨⟨⟨h1, h2⟩, h3⟩, h4⟩ := by
      simpa only [Bool.and_eq_true, Bool.not_eq_true', Bool.and_eq_false_iff,
        decide_eq_true_eq, decide_eq_false_iff_not] using hcond
    have hsur : ¬ (0xD800 ≤ (b0 - 0xE0) * 0x1000 + (b1 - 0x80) * 0x40 + (b2 - 0x80) ∧
        (b0 - 0xE0) * 0x1000 + (b1 - 0x80) * 0x40 + (b2 - 0x80) < 0xE000) := by
      rcases h4 with h4 | h4 <;> omega
    rw [utf8DecodeList_cons3 _ _ _ _ (by omega) hlt h1 h2 h3 hsur] at h
    obtain ⟨cs2, hd, rfl⟩ := Option.map_eq_some'.mp h
    rw [List.flatMap_cons, encChar_ofNat3 _ _ _ (by omega) hlt h1 h2 h3 hsur, ih cs2 hd]
    simp
  | case18 b0 b1 b2 b3 bs hn hn2 hlt n hcond =>
    intro cs h
    simp only [utf8DecodeList, if_neg hn, if_neg hn2, if_pos hlt, if_neg hcond] at h
    exact Option.noConfusion h
  | case19 b0 b1 b2 b3 bs hn hn2 hn3 n hcond ih =>
    intro cs h
    have hnv : n = (b0 - 0xF0) * 0x40000 + (b1 - 0x80) * 0x1000 +
        (b2 - 0x80) * 0x40 + (b3 - 0x80) := rfl
    rw [hnv] at hcond
    obtain ⟨⟨⟨⟨⟨h0, h1⟩, h2⟩, h3⟩, h4⟩, h5⟩ := by
      simpa only [Bool.and_eq_true, decide_eq_true_eq] using hcond
    rw [utf8DecodeList_cons4 _ _ _ _ _ (by omega) h0 h1 h2 h3 h4 h5] at h
    obtain ⟨cs2, hd, rfl⟩ := Option.map_eq_some'.mp h
    rw [List.flatMap_cons, encChar_ofNat4 _ _ _ _ (by omega) h0 h1 h2 h3 h4 h5, ih cs2 hd]
    simp
  | case20 b0 b1 b2 b3 bs hn hn2 hn3 n hcond =>
    intro cs h
    simp only [utf8DecodeList, if_neg hn, if_neg hn2, if_neg hn3, if_neg hcond] at h
    exact Option.noConfusion h

/-- Canonicity at the string level. -/
theorem strBytes_of_utf8Decode? {bs : Bytes} {s : String}
    (h : utf8Decode? bs = some s) : strBytes s = bs := by
  rw [utf8Decode?] at h
  obtain ⟨cs, hd, rfl⟩ := Option.map_eq_some'.mp h
  exact flatMap_encChar_of_decode bs cs hd

/-! ### JSON envelope lemmas -/

theorem jsonStrBody_none {bs : Bytes} (h : jsonStrStep bs = none) :
    jsonStrBody bs = none := by
  rw [jsonStrBody]
  split
  · rfl
  · next r hs => rw [h] at hs; exact Option.noConfusion hs
  · next o r hs => rw [h] at hs; exact Option.noConfusion hs

theorem jsonStrBody_close {bs rest : Bytes}
    (h : jsonStrStep bs = some (StrTok.close rest)) :
    jsonStrBody bs = some ([], rest) := by
  rw [jsonStrBody]
  split
  · next hs => rw [h] at hs; exact Option.noConfusion hs
  · next r hs =>
    rw [h] at hs
    cases Option.some.inj hs
    rfl
  · next o r hs =>
    rw [h] at hs
    exact StrTok.noConfusion (Option.some.inj hs)

theorem jsonStrBody_emit {bs : Bytes} {out rest : Bytes}
    (h : jsonStrStep bs = some (StrTok.emit out rest)) :
    jsonStrBody bs = (jsonStrBody rest).map (fun r => (out ++ r.1, r.2)) := by
  rw [jsonStrBody]
  split
  · next hs => rw [h] at hs; exact Option.noConfusion hs
  · next r hs =>
    rw [h] at hs
    exact StrTok.noConfusion (Option.some.inj hs)
  · next o r hs =>
    rw [h] at hs
    cases Option.some.inj hs
    rfl


theorem jsonStrStep_raw {b : Nat} (bs : Bytes) (h22 : ¬ b = 0x22)
    (h5C : ¬ b = 0x5C) (h20 : ¬ b < 0x20) :
    jsonStrStep (b :: bs) = some (StrTok.emit [b] bs) := by
  rw [jsonStrStep, if_neg h22, if_neg h5C, if_neg h20]

theorem jsonStrBody_raw {b : Nat} (bs : Bytes) (h22 : ¬ b = 0x22)
    (h5C : ¬ b = 0x5C) (h20 : ¬ b < 0x20) :
    jsonStrBody (b :: bs) = (jsonStrBody bs).map (fun r => (b :: r.1, r.2)) := by
  rw [jsonStrBody_emit (jsonStrStep_raw bs h22 h5C h20)]
  rfl

/-- A byte is "raw" when the string-body parser passes it through. -/
def rawByte (b : Nat) : Prop := ¬ b = 0x22 ∧ ¬ b = 0x5C ∧ ¬ b < 0x20

theorem jsonStrBody_raw_run {ws : Bytes} (bs : Bytes)
    (hws : ∀ b ∈ ws, rawByte b) :
    jsonStrBody (ws ++ bs) = (jsonStrBody bs).map (fun r => (ws ++ r.1, r.2)) := by
  induction ws with
  | nil =>
    cases hb : jsonStrBody bs with
    | none => exact hb
    | some r => simpa using hb
  | cons w ws ih =>
    have hw := hws w (by simp)
    rw [List.cons_append, jsonStrBody_raw _ hw.1 hw.2.1 hw.2.2,
      ih (fun b hb => hws b (by simp [hb])), Option.map_map]
    cases hb : jsonStrBody bs with
    | none => rfl
    | some r => rfl


theorem char_eq_ofNat_of_toNat {c : Char} {n : Nat} (h : c.toNat = n) :
    c = Char.ofNat n := by
  rw [← h, Char.ofNat_toNat]

theorem encChar_raw {c : Char} (h20 : ¬ c.toNat < 0x20)
    (h22 : ¬ c = Char.ofNat 0x22) (h5C : ¬ c = Char.ofNat 0x5C) :
    ∀ b ∈ encChar c, rawByte b := by
  intro b hb
  have ht22 : ¬ c.toNat = 0x22 := fun h => h22 (char_eq_ofNat_of_toNat h)
  have ht5C : ¬ c.toNat = 0x5C := fun h => h5C (char_eq_ofNat_of_toNat h)
  rw [encChar, encCodepoint] at hb
  by_cases h1 : c.toNat < 0x80
  · rw [if_pos h1] at hb
    simp only [List.mem_singleton] at hb
    subst hb
    exact ⟨ht22, ht5C, h20⟩
  · by_cases h2 : c.toNat < 0x800
    · rw [if_neg h1, if_pos h2] at hb
      simp only [List.mem_cons, List.mem_singleton, List.not_mem_nil] at hb
      rcases hb with hb | hb | hb <;> first
        | (subst hb; refine ⟨by omega, by omega, by omega⟩)
        | exact absurd hb (by simp)
    · by_cases h3 : c.toNat < 0x10000
      · rw [if_neg h1, if_neg h2, if_pos h3] at hb
        simp only [List.mem_cons, List.mem_singleton, List.not_mem_nil] at hb
        rcases hb with hb | hb | hb | hb <;> first
          | (subst hb; refine ⟨by omega, by omega, by omega⟩)
          | exact absurd hb (by simp)
      · rw [if_neg h1, if_neg h2, if_neg h3] at hb
        simp only [List.mem_cons, List.mem_singleton, List.not_mem_nil] at hb
        rcases hb with hb | hb | hb | hb | hb <;> first
          | (subst hb; refine ⟨by omega, by omega, by omega⟩)
          | exact absurd hb (by simp)

theorem jsonStrBody_escChar (c : Char) (bs : Bytes) :
    jsonStrBody (jsonEscBytes c ++ bs) =
      (jsonStrBody bs).map (fun r => (encChar c ++ r.1, r.2)) := by
  by_cases hlt : c.toNat < 0x20
  · obtain ⟨n, hn, rfl⟩ : ∃ n, n < 0x20 ∧ c = Char.ofNat n :=
      ⟨c.toNat, hlt, (char_eq_ofNat_of_toNat rfl)⟩
    interval_cases n <;>
      exact (jsonStrBody_emit (by rfl)).trans (by rfl)
  · by_cases h22 : c = Char.ofNat 0x22
    · subst h22
      exact (jsonStrBody_emit (by rfl)).trans (by rfl)
    · by_cases h5C : c = Char.ofNat 0x5C
      · subst h5C
        exact (jsonStrBody_emit (by rfl)).trans (by rfl)
      · have hesc : jsonEscBytes c = encChar c := by
          have ht : ∀ m : Nat, m < 0x20 → ¬ c.toNat = m := by
            intro m hm he
            exact hlt (by omega)
          rw [jsonEscBytes, if_neg h22, if_neg h5C, if_neg (ht _ (by omega)),
            if_neg (ht _ (by omega)), if_neg (ht _ (by omega)),
            if_neg (ht _ (by omega)), if_neg (ht _ (by omega)), if_neg hlt]
        rw [hesc]
        exact jsonStrBody_raw_run bs (encChar_raw hlt h22 h5C)


theorem jsonStrBody_escAll (cs : List Char) (rest : Bytes) :
    jsonStrBody (cs.flatMap jsonEscBytes ++ (0x22 :: rest)) =
      some (cs.flatMap encChar, rest) := by
  induction cs with
  | nil =>
    simp only [List.flatMap_nil, List.nil_append]
    exact jsonStrBody_close (by rfl)
  | cons c cs ih =>
    rw [List.flatMap_cons, List.append_assoc, jsonStrBody_escChar, ih,
      Option.map_some', List.flatMap_cons]

theorem skipWs_cons_not {b : Nat} (bs : Bytes) (h : isWs b = false) :
    skipWs (b :: bs) = b :: bs := by
  simp [skipWs, List.dropWhile_cons, h]

theorem decodeStoredValue?_encodeStoredValue (s : String) :
    decodeStoredValue? (encodeStoredValue s) = some s := by
  rw [decodeStoredValue?, encodeStoredValue]
  simp only [List.cons_append, List.nil_append]
  rw [skipWs_cons_not _ (by rfl)]
  rw [show ∀ t : Bytes, expectByte 0x7B (0x7B :: t) = some t from fun t => rfl]
  simp only [Option.some_bind]
  rw [skipWs_cons_not _ (by rfl)]
  rw [show ∀ t : Bytes, expectByte 0x22 (0x22 :: t) = some t from fun t => rfl]
  simp only [Option.some_bind]
  rw [jsonStrBody_raw _ (by decide) (by decide) (by decide),
    jsonStrBody_raw _ (by decide) (by decide) (by decide),
    jsonStrBody_raw _ (by decide) (by decide) (by decide),
    jsonStrBody_raw _ (by decide) (by decide) (by decide),
    jsonStrBody_raw _ (by decide) (by decide) (by decide),
    jsonStrBody_close (by rfl)]
  simp only [Option.map_some', Option.some_bind]
  rw [if_pos (by decide : ([0x76, 0x61, 0x6C, 0x75, 0x65] : Bytes) =
    strBytes "value")]
  rw [skipWs_cons_not _ (by rfl)]
  rw [show ∀ t : Bytes, expectByte 0x3A (0x3A :: t) = some t from fun t => rfl]
  simp only [Option.some_bind]
  rw [skipWs_cons_not _ (by rfl)]
  rw [show ∀ t : Bytes, expectByte 0x22 (0x22 :: t) = some t from fun t => rfl]
  simp only [Option.some_bind]
  rw [jsonStrBody_escAll s.data [0x7D]]
  simp only [Option.some_bind]
  rw [skipWs_cons_not _ (by rfl)]
  rw [show expectByte 0x7D ((0x7D : Nat) :: []) = some [] from rfl]
  simp only [Option.some_bind]
  rw [if_pos (by rfl : skipWs [] = [])]
  rw [← strBytes, utf8Decode?_strBytes]

/-! ### Byte order and database lemmas -/

theorem bytesLt_irrefl (a : Bytes) : bytesLt a a = false := by
  induction a with
  | nil => rfl
  | cons x xs ih => simp [bytesLt, ih]

theorem bytesLt_trans {a b c : Bytes} (hab : bytesLt a b = true)
    (hbc : bytesLt b c = true) : bytesLt a c = true := by
  induction a generalizing b c with
  | nil =>
    cases c with
    | nil =>
      cases b with
      | nil => exact absurd hab (by simp [bytesLt])
      | cons y ys => exact absurd hbc (by simp [bytesLt])
    | cons z zs => rfl
  | cons x xs ih =>
    cases b with
    | nil => exact absurd hab (by simp [bytesLt])
    | cons y ys =>
      cases c with
      | nil => exact absurd hbc (by simp [bytesLt])
      | cons z zs =>
        rw [bytesLt] at hab hbc ⊢
        by_cases hxy : x < y
        · rw [if_pos hxy] at hab
          by_cases hyz : y < z
          · rw [if_pos (by omega : x < z)]
          · rw [if_neg hyz] at hbc
            by_cases hyz2 : y = z
            · rw [if_pos (by omega : x < z)]
            · rw [if_neg hyz2] at hbc
              exact absurd hbc (by simp)
        · rw [if_neg hxy] at hab
          by_cases hxy2 : x = y
          · rw [if_pos hxy2] at hab
            subst hxy2
            by_cases hyz : x < z
            · rw [if_pos hyz]
            · rw [if_neg hyz] at hbc ⊢
              by_cases hyz2 : x = z
              · rw [if_pos hyz2] at hbc ⊢
                exact ih hab hbc
              · rw [if_neg hyz2] at hbc
                exact absurd hbc (by simp)
          · rw [if_neg hxy2] at hab
            exact absurd hab (by simp)

theorem bytesLt_total {a b : Bytes} (hab : bytesLt a b = false)
    (hne : ¬ a = b) : bytesLt b a = true := by
  induction a generalizing b with
  | nil =>
    cases b with
    | nil => exact absurd rfl hne
    | cons y ys => exact absurd hab (by simp [bytesLt])
  | cons x xs ih =>
    cases b with
    | nil => rfl
    | cons y ys =>
      rw [bytesLt] at hab ⊢
      by_cases hxy : x < y
      · rw [if_pos hxy] at hab
        exact absurd hab (by simp)
      · rw [if_neg hxy] at hab
        by_cases hyx : y < x
        · rw [if_pos hyx]
        · by_cases hxy2 : x = y
          · rw [if_pos hxy2] at hab
            subst hxy2
            rw [if_neg hyx, if_pos rfl]
            exact ih hab (fun h => hne (by rw [h]))
          · omega

theorem mem_dbInsert_self (db : Db) (k v : Bytes) :
    (k, v) ∈ dbInsert db k v := by
  induction db with
  | nil => simp [dbInsert]
  | cons e rest ih =>
    obtain ⟨k0, v0⟩ := e
    rw [dbInsert]
    by_cases h1 : bytesLt k k0 = true
    · rw [if_pos h1]; simp
    · rw [if_neg h1]
      by_cases h2 : k = k0
      · rw [if_pos h2]; simp
      · rw [if_neg h2]
        simp [ih]

theorem mem_dbInsert {db : Db} {k v : Bytes} {e : Bytes × Bytes}
    (h : e ∈ dbInsert db k v) : e = (k, v) ∨ e ∈ db := by
  induction db with
  | nil => simpa [dbInsert] using h
  | cons e0 rest ih =>
    obtain ⟨k0, v0⟩ := e0
    rw [dbInsert] at h
    by_cases h1 : bytesLt k k0 = true
    · rw [if_pos h1] at h
      rcases List.mem_cons.mp h with h | h
      · exact Or.inl h
      · exact Or.inr h
    · rw [if_neg h1] at h
      by_cases h2 : k = k0
      · rw [if_pos h2] at h
        rcases List.mem_cons.mp h with h | h
        · exact Or.inl h
        · exact Or.inr (List.mem_cons_of_mem _ h)
      · rw [if_neg h2] at h
        rcases List.mem_cons.mp h with h | h
        · exact Or.inr (h ▸ List.mem_cons_self _ _)
        · rcases ih h with h | h
          · exact Or.inl h
          · exact Or.inr (List.mem_cons_of_mem _ h)

theorem dbLookup_dbInsert_self (db : Db) (k v : Bytes) :
    dbLookup (dbInsert db k v) k = some v := by
  induction db with
  | nil => simp [dbInsert, dbLookup]
  | cons e rest ih =>
    obtain ⟨k0, v0⟩ := e
    rw [dbInsert]
    by_cases h1 : bytesLt k k0 = true
    · rw [if_pos h1, dbLookup, if_pos rfl]
    · rw [if_neg h1]
      by_cases h2 : k = k0
      · rw [if_pos h2, dbLookup, if_pos rfl]
      · rw [if_neg h2, dbLookup, if_neg h2, ih]

theorem dbLookup_dbInsert_other {db : Db} {k v k2 : Bytes} (h : ¬ k2 = k) :
    dbLookup (dbInsert db k v) k2 = dbLookup db k2 := by
  induction db with
  | nil => simp [dbInsert, dbLookup, h]
  | cons e rest ih =>
    obtain ⟨k0, v0⟩ := e
    rw [dbInsert]
    by_cases h1 : bytesLt k k0 = true
    · rw [if_pos h1, dbLookup, if_neg h]
    · rw [if_neg h1]
      by_cases h2 : k = k0
      · subst h2
        rw [if_pos rfl, dbLookup, dbLookup, if_neg h, if_neg h]
      · rw [if_neg h2, dbLookup, dbLookup]
        by_cases h3 : k2 = k0
        · rw [if_pos h3, if_pos h3]
        · rw [if_neg h3, if_neg h3, ih]

theorem dbInsert_dbInsert_same (db : Db) (k : Bytes) (v1 v2 : Bytes) :
    dbInsert (dbInsert db k v1) k v2 = dbInsert db k v2 := by
  induction db with
  | nil => simp [dbInsert, bytesLt_irrefl]
  | cons e rest ih =>
    obtain ⟨k0, v0⟩ := e
    rw [dbInsert]
    by_cases h1 : bytesLt k k0 = true
    · rw [if_pos h1, dbInsert, if_neg (by simp [bytesLt_irrefl]), if_pos rfl,
        dbInsert, if_pos h1]
    · rw [if_neg h1]
      by_cases h2 : k = k0
      · rw [if_pos h2, dbInsert, if_neg (by simp [bytesLt_irrefl]), if_pos rfl,
        dbInsert, if_neg h1, if_pos h2]
      · rw [if_neg h2, dbInsert, if_neg h1, if_neg h2, dbInsert, if_neg h1,
          if_neg h2, ih]

theorem DbWF_dbInsert {db : Db} (h : DbWF db) (k v : Bytes) :
    DbWF (dbInsert db k v) := by
  induction db with
  | nil => simp [dbInsert, DbWF]
  | cons e rest ih =>
    obtain ⟨k0, v0⟩ := e
    rw [DbWF, List.pairwise_cons] at h
    obtain ⟨hall, hrest⟩ := h
    rw [dbInsert]
    by_cases h1 : bytesLt k k0 = true
    · rw [if_pos h1, DbWF, List.pairwise_cons]
      refine ⟨?_, ?_⟩
      · intro e he
        rcases List.mem_cons.mp he with he | he
        · rw [he]
          exact h1
        · exact bytesLt_trans h1 (hall e he)
      · rw [DbWF, List.pairwise_cons] at *
        exact ⟨hall, hrest⟩
    · rw [if_neg h1]
      by_cases h2 : k = k0
      · rw [if_pos h2, DbWF, List.pairwise_cons]
        subst h2
        exact ⟨hall, hrest⟩
      · rw [if_neg h2, DbWF, List.pairwise_cons]
        refine ⟨?_, ih hrest⟩
        intro e he
        rcases mem_dbInsert he with he | he
        · rw [he]
          exact bytesLt_total (Bool.eq_false_iff.mpr h1) h2
        · exact hall e he

theorem dbLookup_eq_some_of_mem {db : Db} {k v : Bytes}
    (hwf : DbWF db) (hm : (k, v) ∈ db) : dbLookup db k = some v := by
  induction db with
  | nil => exact absurd hm (by simp)
  | cons e rest ih =>
    obtain ⟨k0, v0⟩ := e
    rw [DbWF, List.pairwise_cons] at hwf
    obtain ⟨hall, hrest⟩ := hwf
    rcases List.mem_cons.mp hm with hm1 | hm2
    · injection hm1 with h1 h2
      subst h1
      subst h2
      rw [dbLookup, if_pos rfl]
    · by_cases hk : k = k0
      · subst hk
        have hcon := hall _ hm2
        simp only [bytesLt_irrefl] at hcon
        exact Bool.noConfusion hcon
      · rw [dbLookup, if_neg hk]
        exact ih hrest hm2

/-! ### Scan and chunk-assembly lemmas -/

theorem strBytes_append (s t : String) :
    strBytes (s ++ t) = strBytes s ++ strBytes t := by
  rw [strBytes, strBytes, strBytes, String.data_append, List.flatMap_append]

theorem storeKeyBytes_decomp (fileKey chunkHash : String) :
    storeKeyBytes fileKey chunkHash =
      strBytes (fileKey ++ ":") ++ strBytes chunkHash := by
  rw [storeKeyBytes, storeKey, strBytes_append]

theorem isPrefixOf_append (p t : Bytes) : p.isPrefixOf (p ++ t) = true :=
  List.isPrefixOf_iff_prefix.mpr (List.prefix_append p t)

theorem mem_prefixScan {db : Db} {p : Bytes} {e : Bytes × Bytes} :
    e ∈ prefixScan db p ↔ e ∈ db ∧ p.isPrefixOf e.1 = true := by
  rw [prefixScan, List.mem_filter]

theorem prefixScan_pairwise {db : Db} (hwf : DbWF db) (p : Bytes) :
    List.Pairwise (fun a b => bytesLt a.1 b.1 = true) (prefixScan db p) :=
  List.Pairwise.filter _ hwf

/-- The decoding filter `retrieve_file_chunks` applies to one scanned
entry: UTF-8-decode the key, deserialize the value. -/
def decodeEntry? (e : Bytes × Bytes) : Option Chunk :=
  match utf8Decode? e.1 with
  | none => none
  | some ks =>
    match decodeStoredValue? e.2 with
    | none => none
    | some vs => some ⟨ks, vs⟩

theorem chunksOfScan_map_ok (es : List (Bytes × Bytes)) :
    chunksOfScan (es.map Except.ok) = es.filterMap decodeEntry? := by
  induction es with
  | nil => rfl
  | cons e rest ih =>
    obtain ⟨kb, vb⟩ := e
    rw [List.map_cons, List.filterMap_cons, chunksOfScan, decodeEntry?]
    cases hk : utf8Decode? kb with
    | none => exact ih
    | some ks =>
      cases hv : decodeStoredValue? vb with
      | none => exact ih
      | some vs => rw [ih]

theorem chunksOfScan_append (xs ys : List ScanResult) :
    chunksOfScan (xs ++ ys) = chunksOfScan xs ++ chunksOfScan ys := by
  induction xs with
  | nil => rfl
  | cons x rest ih =>
    match x with
    | Except.error u => rw [List.cons_append, chunksOfScan, ih, chunksOfScan]
    | Except.ok (kb, vb) =>
      rw [List.cons_append, chunksOfScan, chunksOfScan]
      cases hk : utf8Decode? kb with
      | none => exact ih
      | some ks =>
        cases hv : decodeStoredValue? vb with
        | none => exact ih
        | some vs => rw [ih, List.cons_append]

theorem mem_chunksOfScan_of_mem {es : List (Bytes × Bytes)}
    {e : Bytes × Bytes} {c : Chunk} (he : e ∈ es)
    (hd : decodeEntry? e = some c) :
    c ∈ chunksOfScan (es.map Except.ok) := by
  rw [chunksOfScan_map_ok]
  exact List.mem_filterMap.mpr ⟨e, he, hd⟩

theorem mem_of_mem_chunksOfScan {es : List (Bytes × Bytes)} {c : Chunk}
    (hc : c ∈ chunksOfScan (es.map Except.ok)) :
    ∃ e ∈ es, utf8Decode? e.1 = some c.key ∧
      decodeStoredValue? e.2 = some c.value := by
  rw [chunksOfScan_map_ok] at hc
  obtain ⟨e, he, hd⟩ := List.mem_filterMap.mp hc
  refine ⟨e, he, ?_⟩
  rw [decodeEntry?] at hd
  cases hk : utf8Decode? e.1 with
  | none => rw [hk] at hd; exact Option.noConfusion hd
  | some ks =>
    rw [hk] at hd
    cases hv : decodeStoredValue? e.2 with
    | none => rw [hv] at hd; exact Option.noConfusion hd
    | some vs =>
      rw [hv] at hd
      cases Option.some.inj hd
      exact ⟨rfl, rfl⟩

theorem decodeEntry?_writeChunk (fileKey chunkHash chunkData : String) :
    decodeEntry? (storeKeyBytes fileKey chunkHash,
      encodeStoredValue chunkData) =
      some ⟨storeKey fileKey chunkHash, chunkData⟩ := by
  rw [decodeEntry?]
  have hk : utf8Decode? (storeKeyBytes fileKey chunkHash) =
      some (storeKey fileKey chunkHash) := by
    rw [storeKeyBytes]
    exact utf8Decode?_strBytes _
  rw [hk, decodeStoredValue?_encodeStoredValue]

theorem mem_dbInsert_of_mem_ne {db : Db} {e : Bytes × Bytes} {k v : Bytes}
    (he : e ∈ db) (hne : ¬ e.1 = k) : e ∈ dbInsert db k v := by
  induction db with
  | nil => exact absurd he (by simp)
  | cons e0 rest ih =>
    obtain ⟨k0, v0⟩ := e0
    rw [dbInsert]
    by_cases h1 : bytesLt k k0 = true
    · rw [if_pos h1]
      exact List.mem_cons_of_mem _ he
    · rw [if_neg h1]
      by_cases h2 : k = k0
      · rw [if_pos h2]
        rcases List.mem_cons.mp he with he | he
        · subst h2
          exact absurd (congrArg Prod.fst he) hne
        · exact List.mem_cons_of_mem _ he
      · rw [if_neg h2]
        rcases List.mem_cons.mp he with he | he
        · exact he ▸ List.mem_cons_self _ _
        · exact List.mem_cons_of_mem _ (ih he)

theorem decodeEntry?_eq_some {e : Bytes × Bytes} {c : Chunk}
    (h : decodeEntry? e = some c) :
    utf8Decode? e.1 = some c.key ∧ decodeStoredValue? e.2 = some c.value := by
  rw [decodeEntry?] at h
  cases hk : utf8Decode? e.1 with
  | none => rw [hk] at h; exact Option.noConfusion h
  | some ks =>
    rw [hk] at h
    cases hv : decodeStoredValue? e.2 with
    | none => rw [hv] at h; exact Option.noConfusion h
    | some vs =>
      rw [hv] at h
      cases Option.some.inj h
      exact ⟨rfl, rfl⟩

theorem strBytes_key_of_decodeEntry {e : Bytes × Bytes} {c : Chunk}
    (h : decodeEntry? e = some c) : strBytes c.key = e.1 :=
  strBytes_of_utf8Decode? (decodeEntry?_eq_some h).1

/-- The chunk list inherits the strictly ascending key order of the scan,
read through the (canonical) UTF-8 decoding of the keys. -/
theorem chunksOfScan_pairwise {es : List (Bytes × Bytes)}
    (h : List.Pairwise (fun a b => bytesLt a.1 b.1 = true) es) :
    List.Pairwise
      (fun c1 c2 => bytesLt (strBytes c1.key) (strBytes c2.key) = true)
      (chunksOfScan (es.map Except.ok)) := by
  rw [chunksOfScan_map_ok, List.pairwise_filterMap]
  refine h.imp ?_
  intro a b hab c hc d hd
  rw [strBytes_key_of_decodeEntry hc, strBytes_key_of_decodeEntry hd]
  exact hab

theorem chunks_filter_key_nil {es : List (Bytes × Bytes)} {sk : String}
    (h : ∀ e ∈ es, ¬ e.1 = strBytes sk) :
    (es.filterMap decodeEntry?).filter (fun c => c.key == sk) = [] := by
  rw [List.filter_eq_nil_iff]
  intro c hc
  obtain ⟨e, he, hd⟩ := List.mem_filterMap.mp hc
  simp only [beq_iff_eq]
  intro hk
  exact h e he (by rw [← strBytes_key_of_decodeEntry hd, hk])

theorem chunks_filter_key {es : List (Bytes × Bytes)} {sk vdata : String}
    (hin : (strBytes sk, encodeStoredValue vdata) ∈ es)
    (huniq : ∀ e ∈ es, e.1 = strBytes sk → e.2 = encodeStoredValue vdata)
    (hpw : List.Pairwise (fun a b => bytesLt a.1 b.1 = true) es) :
    (es.filterMap decodeEntry?).filter (fun c => c.key == sk)
      = [⟨sk, vdata⟩] := by
  induction es with
  | nil => exact absurd hin (by simp)
  | cons e rest ih =>
    rw [List.pairwise_cons] at hpw
    obtain ⟨hall, hrest⟩ := hpw
    by_cases hk : e.1 = strBytes sk
    · have hv : e.2 = encodeStoredValue vdata :=
        huniq e (List.mem_cons_self _ _) hk
      have he : e = (strBytes sk, encodeStoredValue vdata) := by
        obtain ⟨e1, e2⟩ := e
        simp only at hk hv
        rw [hk, hv]
      have hd : decodeEntry? e = some ⟨sk, vdata⟩ := by
        rw [he, decodeEntry?]
        have h1 : utf8Decode? (strBytes sk, encodeStoredValue vdata).1
            = some sk := utf8Decode?_strBytes sk
        rw [h1]
        have h2 : decodeStoredValue? (strBytes sk, encodeStoredValue vdata).2
            = some vdata := decodeStoredValue?_encodeStoredValue vdata
        rw [h2]
      rw [List.filterMap_cons, hd, List.filter_cons]
      rw [if_pos (by simp)]
      have hrestnil : (rest.filterMap decodeEntry?).filter
          (fun c => c.key == sk) = [] := by
        refine chunks_filter_key_nil ?_
        intro e2 he2 hk2
        have := hall e2 he2
        rw [hk, hk2] at this
        rw [bytesLt_irrefl] at this
        exact Bool.noConfusion this
      rw [hrestnil]
    · have hin2 : (strBytes sk, encodeStoredValue vdata) ∈ rest := by
        rcases List.mem_cons.mp hin with h | h
        · exact absurd (congrArg Prod.fst h.symm) hk
        · exact h
      have htail := ih hin2
        (fun e2 he2 hk2 => huniq e2 (List.mem_cons_of_mem _ he2) hk2) hrest
      rw [List.filterMap_cons]
      cases hd : decodeEntry? e with
      | none => exact htail
      | some c =>
        rw [List.filter_cons]
        rw [if_neg ?_]
        · exact htail
        · simp only [beq_iff_eq]
          intro hkey
          exact hk (by rw [← strBytes_key_of_decodeEntry hd, hkey])

theorem bytesLt_append (p x y : Bytes) :
    bytesLt (p ++ x) (p ++ y) = bytesLt x y := by
  induction p with
  | nil => rfl
  | cons b p ih => simp [bytesLt, ih]

theorem retrieve_chunk_key_shape {db : Db} {fk : String} {c : Chunk}
    (hc : c ∈ chunksOfScan
      ((prefixScan db (strBytes (fk ++ ":"))).map Except.ok)) :
    ∃ suffix, c.key = fk ++ ":" ++ suffix := by
  obtain ⟨e, he, hkey, hval⟩ := mem_of_mem_chunksOfScan hc
  obtain ⟨hmem, hpre⟩ := mem_prefixScan.mp he
  obtain ⟨t, ht⟩ := List.isPrefixOf_iff_prefix.mp hpre
  rw [← ht, utf8Decode?_strBytes_append] at hkey
  obtain ⟨t2, htd, hk2⟩ := Option.map_eq_some'.mp hkey
  exact ⟨t2, hk2.symm⟩

/-! ### The claims -/

/-- C1.  For every triple (fileKey, chunkHash, payload) and every store
state, `writeChunk` followed immediately by `readAllChunks fileKey`
answers `Ok` with a chunk list containing a record whose key is
`fileKey ++ ":" ++ chunkHash` and whose value is the payload. -/
theorem c1_write_then_read_includes (db : Db)
    (fileKey chunkHash payload : String) :
    ∃ cs, retrieve_file_chunks (writeChunkDb db fileKey chunkHash payload)
        fileKey = Except.ok ⟨fileKey, cs⟩ ∧
      (⟨fileKey ++ ":" ++ chunkHash, payload⟩ : Chunk) ∈ cs := by
  refine ⟨_, rfl, ?_⟩
  refine mem_chunksOfScan_of_mem (mem_prefixScan.mpr ⟨mem_dbInsert_self _ _ _, ?_⟩)
    (decodeEntry?_writeChunk fileKey chunkHash payload)
  rw [storeKeyBytes_decomp]
  exact isPrefixOf_append _ _

/-- C2.  With chunks written under both `"file1"` and `"file10"`,
`readAllChunks "file1"` contains `"file1"`'s chunk, every returned key is
of the form `"file1:" ++ suffix`, and no returned key is of the form
`"file10:" ++ hash`. -/
theorem c2_prefix_isolation (db : Db) (h1 h2 p1 p2 : String) :
    ∃ cs, retrieve_file_chunks
        (writeChunkDb (writeChunkDb db "file1" h1 p1) "file10" h2 p2) "file1"
        = Except.ok ⟨"file1", cs⟩ ∧
      (⟨"file1" ++ ":" ++ h1, p1⟩ : Chunk) ∈ cs ∧
      (∀ c ∈ cs, ∃ suffix, c.key = "file1" ++ ":" ++ suffix) ∧
      (∀ c ∈ cs, ∀ h, ¬ c.key = "file10" ++ ":" ++ h) := by
  refine ⟨_, rfl, ?_, ?_, ?_⟩
  · have hne : ¬ (storeKeyBytes "file1" h1, encodeStoredValue p1).1
        = storeKeyBytes "file10" h2 := by
      simp only
      rw [storeKeyBytes_decomp, storeKeyBytes_decomp,
        (by decide : strBytes ("file1" ++ ":")
          = [0x66, 0x69, 0x6C, 0x65, 0x31, 0x3A]),
        (by decide : strBytes ("file10" ++ ":")
          = [0x66, 0x69, 0x6C, 0x65, 0x31, 0x30, 0x3A])]
      intro h
      simp at h
    refine mem_chunksOfScan_of_mem (mem_prefixScan.mpr
      ⟨mem_dbInsert_of_mem_ne (mem_dbInsert_self _ _ _) hne, ?_⟩)
      (decodeEntry?_writeChunk "file1" h1 p1)
    rw [storeKeyBytes_decomp]
    exact isPrefixOf_append _ _
  · intro c hc
    exact retrieve_chunk_key_shape hc
  · intro c hc h hkey
    obtain ⟨suffix, hsuf⟩ := retrieve_chunk_key_shape hc
    rw [hkey] at hsuf
    have hb := congrArg strBytes hsuf
    rw [strBytes_append, strBytes_append, strBytes_append, strBytes_append]
      at hb
    have e1 : strBytes "file1" = [0x66, 0x69, 0x6C, 0x65, 0x31] := by decide
    have e2 : strBytes "file10" = [0x66, 0x69, 0x6C, 0x65, 0x31, 0x30] := by
      decide
    have e3 : strBytes ":" = [0x3A] := by decide
    rw [e1, e2, e3] at hb
    simp at hb

/-- C3.  Writing hashes `"a"`, `"c"`, `"b"` under one fileKey into an
empty store and reading yields the records in order `"a"`, `"b"`, `"c"`;
and on any well-formed store `readAllChunks` yields its records in
strictly ascending byte-wise key order. -/
theorem c3_read_ordering (fileKey pa pc pb : String) (db : Db)
    (hwf : DbWF db) :
    (retrieve_file_chunks
        (writeChunkDb (writeChunkDb (writeChunkDb [] fileKey "a" pa)
          fileKey "c" pc) fileKey "b" pb) fileKey
      = Except.ok ⟨fileKey,
          [⟨fileKey ++ ":" ++ "a", pa⟩, ⟨fileKey ++ ":" ++ "b", pb⟩,
           ⟨fileKey ++ ":" ++ "c", pc⟩]⟩) ∧
    (∀ cs, retrieve_file_chunks db fileKey = Except.ok ⟨fileKey, cs⟩ →
      List.Pairwise
        (fun c1 c2 => bytesLt (strBytes c1.key) (strBytes c2.key) = true)
        cs) := by
  constructor
  · have hka : storeKeyBytes fileKey "a" = strBytes (fileKey ++ ":") ++ [0x61] := by
      rw [storeKeyBytes_decomp]
      congr 1
    have hkb : storeKeyBytes fileKey "b" = strBytes (fileKey ++ ":") ++ [0x62] := by
      rw [storeKeyBytes_decomp]
      congr 1
    have hkc : storeKeyBytes fileKey "c" = strBytes (fileKey ++ ":") ++ [0x63] := by
      rw [storeKeyBytes_decomp]
      congr 1
    have hlt_ca : ¬ bytesLt (storeKeyBytes fileKey "c")
        (storeKeyBytes fileKey "a") = true := by
      rw [hkc, hka, bytesLt_append]
      decide
    have hne_ca : ¬ storeKeyBytes fileKey "c" = storeKeyBytes fileKey "a" := by
      rw [hkc, hka]
      intro h
      exact absurd (List.append_cancel_left h) (by decide)
    have hlt_ba : ¬ bytesLt (storeKeyBytes fileKey "b")
        (storeKeyBytes fileKey "a") = true := by
      rw [hkb, hka, bytesLt_append]
      decide
    have hne_ba : ¬ storeKeyBytes fileKey "b" = storeKeyBytes fileKey "a" := by
      rw [hkb, hka]
      intro h
      exact absurd (List.append_cancel_left h) (by decide)
    have hlt_bc : bytesLt (storeKeyBytes fileKey "b")
        (storeKeyBytes fileKey "c") = true := by
      rw [hkb, hkc, bytesLt_append]
      decide
    have e2 : writeChunkDb (writeChunkDb [] fileKey "a" pa) fileKey "c" pc
        = [(storeKeyBytes fileKey "a", encodeStoredValue pa),
           (storeKeyBytes fileKey "c", encodeStoredValue pc)] := by
      show dbInsert [(storeKeyBytes fileKey "a", encodeStoredValue pa)]
        (storeKeyBytes fileKey "c") (encodeStoredValue pc) = _
      rw [dbInsert, if_neg hlt_ca, if_neg hne_ca, dbInsert]
    have e3 : writeChunkDb (writeChunkDb (writeChunkDb [] fileKey "a" pa)
        fileKey "c" pc) fileKey "b" pb
        = [(storeKeyBytes fileKey "a", encodeStoredValue pa),
           (storeKeyBytes fileKey "b", encodeStoredValue pb),
           (storeKeyBytes fileKey "c", encodeStoredValue pc)] := by
      rw [writeChunkDb, e2, dbInsert, if_neg hlt_ba, if_neg hne_ba,
        dbInsert, if_pos hlt_bc]
    have hpa : (strBytes (fileKey ++ ":")).isPrefixOf
        (storeKeyBytes fileKey "a") = true := by
      rw [hka]
      exact isPrefixOf_append _ _
    have hpb : (strBytes (fileKey ++ ":")).isPrefixOf
        (storeKeyBytes fileKey "b") = true := by
      rw [hkb]
      exact isPrefixOf_append _ _
    have hpc : (strBytes (fileKey ++ ":")).isPrefixOf
        (storeKeyBytes fileKey "c") = true := by
      rw [hkc]
      exact isPrefixOf_append _ _
    rw [retrieve_file_chunks, e3, prefixScan]
    rw [List.filter_cons, if_pos hpa, List.filter_cons, if_pos hpb,
      List.filter_cons, if_pos hpc, List.filter_nil]
    rw [retrieveFromResults, chunksOfScan_map_ok]
    rw [List.filterMap_cons, decodeEntry?_writeChunk fileKey "a" pa,
      List.filterMap_cons, decodeEntry?_writeChunk fileKey "b" pb,
      List.filterMap_cons, decodeEntry?_writeChunk fileKey "c" pc,
      List.filterMap_nil]
    rfl
  · intro cs hcs
    rw [retrieve_file_chunks, retrieveFromResults] at hcs
    have := Except.ok.inj hcs
    have hchunks := congrArg FileChunksResponse.chunks this
    simp only at hchunks
    rw [← hchunks]
    exact chunksOfScan_pairwise (prefixScan_pairwise hwf _)

/-- C3 witness. -/
theorem c3_witness :
    (retrieve_file_chunks
        (writeChunkDb (writeChunkDb (writeChunkDb [] "f" "a" "x")
          "f" "c" "y") "f" "b" "z") "f"
      = Except.ok ⟨"f",
          [⟨"f" ++ ":" ++ "a", "x"⟩, ⟨"f" ++ ":" ++ "b", "z"⟩,
           ⟨"f" ++ ":" ++ "c", "y"⟩]⟩) ∧
    (∀ cs, retrieve_file_chunks [] "f" = Except.ok ⟨"f", cs⟩ →
      List.Pairwise
        (fun c1 c2 => bytesLt (strBytes c1.key) (strBytes c2.key) = true)
        cs) :=
  c3_read_ordering "f" "x" "y" "z" [] (by simp [DbWF])

/-- C4.  Writing the same (fileKey, chunkHash) twice with payloads `p1`
then `p2` and reading yields exactly one record with that composite key,
carrying `p2` (last-writer-wins, no duplicate). -/
theorem c4_last_writer_wins (db : Db) (hwf : DbWF db)
    (fileKey chunkHash p1 p2 : String) :
    ∃ cs, retrieve_file_chunks
        (writeChunkDb (writeChunkDb db fileKey chunkHash p1)
          fileKey chunkHash p2) fileKey = Except.ok ⟨fileKey, cs⟩ ∧
      cs.filter (fun c => c.key == fileKey ++ ":" ++ chunkHash)
        = [⟨fileKey ++ ":" ++ chunkHash, p2⟩] := by
  refine ⟨_, rfl, ?_⟩
  have hdb : writeChunkDb (writeChunkDb db fileKey chunkHash p1)
      fileKey chunkHash p2 = writeChunkDb db fileKey chunkHash p2 :=
    dbInsert_dbInsert_same db _ _ _
  rw [hdb, chunksOfScan_map_ok]
  have hwf2 : DbWF (writeChunkDb db fileKey chunkHash p2) :=
    DbWF_dbInsert hwf _ _
  refine chunks_filter_key ?_ ?_
    (prefixScan_pairwise hwf2 _)
  · refine mem_prefixScan.mpr ⟨mem_dbInsert_self _ _ _, ?_⟩
    show List.isPrefixOf (strBytes (fileKey ++ ":"))
      (strBytes (fileKey ++ ":" ++ chunkHash)) = true
    rw [show strBytes (fileKey ++ ":" ++ chunkHash)
      = strBytes (fileKey ++ ":") ++ strBytes chunkHash from strBytes_append _ _]
    exact isPrefixOf_append _ _
  · intro e he hk
    obtain ⟨e1, e2⟩ := e
    simp only at hk
    subst hk
    have hmem : ((strBytes (fileKey ++ ":" ++ chunkHash) : Bytes), e2)
        ∈ writeChunkDb db fileKey chunkHash p2 := (mem_prefixScan.mp he).1
    have hl := dbLookup_eq_some_of_mem hwf2 hmem
    have hl2 : dbLookup (writeChunkDb db fileKey chunkHash p2)
        (strBytes (fileKey ++ ":" ++ chunkHash)) = some (encodeStoredValue p2) :=
      dbLookup_dbInsert_self _ _ _
    rw [hl] at hl2
    exact Option.some.inj hl2

/-- C4 witness. -/
theorem c4_witness :
    ∃ cs, retrieve_file_chunks
        (writeChunkDb (writeChunkDb [] "f" "h" "x") "f" "h" "y") "f"
        = Except.ok ⟨"f", cs⟩ ∧
      cs.filter (fun c => c.key == "f" ++ ":" ++ "h")
        = [⟨"f" ++ ":" ++ "h", "y"⟩] :=
  c4_last_writer_wins [] (by simp [DbWF]) "f" "h" "x" "y"

/-- C5.  Reading a fileKey under which nothing was written answers `Ok`
with the empty chunk list, never an error. -/
theorem c5_empty_read (db : Db) (fileKey : String) (hfk : ¬ fileKey = "")
    (hnone : ∀ e ∈ db, (strBytes (fileKey ++ ":")).isPrefixOf e.1 = false) :
    retrieve_file_chunks db fileKey = Except.ok ⟨fileKey, []⟩ := by
  rw [retrieve_file_chunks, retrieveFromResults]
  have hscan : prefixScan db (strBytes (fileKey ++ ":")) = [] := by
    rw [prefixScan, List.filter_eq_nil_iff]
    intro e he
    simp [hnone e he]
  rw [hscan]
  rfl

/-- C5 witness. -/
theorem c5_witness :
    retrieve_file_chunks [([0x61], [])] "b" = Except.ok ⟨"b", []⟩ :=
  c5_empty_read [([0x61], [])] "b" (by decide) (by decide)

/-- C6.  A scanned entry whose key is not valid UTF-8 or whose value is
not a well-formed envelope is skipped: the overall call still answers
`Ok`, and the chunks of the surrounding entries are all kept. -/
theorem c6_per_entry_skip (fileKey : String) (pre post : List ScanResult)
    (kb vb : Bytes)
    (hbad : utf8Decode? kb = none ∨ decodeStoredValue? vb = none) :
    retrieveFromResults fileKey (pre ++ Except.ok (kb, vb) :: post)
      = Except.ok ⟨fileKey, chunksOfScan pre ++ chunksOfScan post⟩ := by
  rw [retrieveFromResults, chunksOfScan_append]
  have h1 : chunksOfScan (Except.ok (kb, vb) :: post) = chunksOfScan post := by
    rcases hbad with hb | hb
    · simp only [chunksOfScan, hb]
    · cases hk : utf8Decode? kb with
      | none => simp only [chunksOfScan, hk]
      | some ks => simp only [chunksOfScan, hk, hb]
  rw [h1]

/-- C6 witness. -/
theorem c6_witness :
    retrieveFromResults "f" ([] ++ Except.ok (([0xFF] : Bytes), ([] : Bytes)) :: [])
      = Except.ok ⟨"f", chunksOfScan [] ++ chunksOfScan []⟩ :=
  c6_per_entry_skip "f" [] [] [0xFF] [] (Or.inl (by decide))

/-- C7 as stated is false: a store-level error during the iteration does
not make the call return `StorageFailure`; this concrete scan consisting
of one erroneous entry still answers `Ok` with an empty chunk list. -/
theorem c7_counterexample :
    retrieveFromResults "f" [Except.error ()] = Except.ok ⟨"f", []⟩ := rfl

/-- C7 amended.  The read path never returns an error at all: store-level
per-entry errors are skipped exactly like decode failures, and the only
exit of the handler is `Ok`. -/
theorem c7_read_never_errors (fileKey : String) (results : List ScanResult)
    (db : Db) :
    (∃ resp, retrieveFromResults fileKey results = Except.ok resp) ∧
    (∃ resp, retrieve_file_chunks db fileKey = Except.ok resp) :=
  ⟨⟨_, rfl⟩, ⟨_, rfl⟩⟩

/-- C8.  `store_chunk` answers 200 exactly when both the insert and the
flush succeed, and 500 whenever either fails. -/
theorem c8_write_status (db : Db) (fileKey chunkHash chunkData : String)
    (insertOk flushOk : Bool) :
    ((store_chunk db fileKey chunkHash chunkData insertOk flushOk).2
        = statusOK ↔ insertOk = true ∧ flushOk = true) ∧
    ((store_chunk db fileKey chunkHash chunkData insertOk flushOk).2
        = statusInternalServerError
      ↔ ¬ (insertOk = true ∧ flushOk = true)) := by
  cases insertOk <;> cases flushOk <;>
    simp [store_chunk, statusOK, statusInternalServerError]

/-- C9.  A successful write touches exactly one key: every other key maps
to the same value as before. -/
theorem c9_write_frame (db : Db) (fileKey chunkHash payload : String)
    (k2 : Bytes) (hk : ¬ k2 = storeKeyBytes fileKey chunkHash) :
    dbLookup (writeChunkDb db fileKey chunkHash payload) k2
      = dbLookup db k2 :=
  dbLookup_dbInsert_other hk

/-- C9 witness. -/
theorem c9_witness :
    dbLookup (writeChunkDb [] "a" "b" "x") [0x00] = dbLookup [] [0x00] :=
  c9_write_frame [] "a" "b" "x" [0x00] (by decide)

/-- C10.  No validation of fileKey or chunkHash: every pair of strings is
stored under the concatenated key, `("a:b", "c")` and `("a", "b:c")`
collide on the key `"a:b:c"`, and `readAllChunks "a"` then returns that
record. -/
theorem c10_no_validation :
    storeKeyBytes "a:b" "c" = storeKeyBytes "a" "b:c" ∧
    (∀ (db : Db) (fileKey chunkHash payload : String),
      dbLookup (writeChunkDb db fileKey chunkHash payload)
        (storeKeyBytes fileKey chunkHash) = some (encodeStoredValue payload)) ∧
    (∀ (db : Db) (payload : String),
      ∃ cs, retrieve_file_chunks (writeChunkDb db "a:b" "c" payload) "a"
          = Except.ok ⟨"a", cs⟩ ∧ (⟨"a:b:c", payload⟩ : Chunk) ∈ cs) := by
  refine ⟨by decide, fun db fk ch p => dbLookup_dbInsert_self _ _ _,
    fun db p => ⟨_, rfl, ?_⟩⟩
  have hd : decodeEntry? (storeKeyBytes "a:b" "c", encodeStoredValue p)
      = some ⟨"a:b:c", p⟩ := by
    have h1 := decodeEntry?_writeChunk "a:b" "c" p
    rw [show storeKey "a:b" "c" = "a:b:c" from by decide] at h1
    exact h1
  refine mem_chunksOfScan_of_mem
    (mem_prefixScan.mpr ⟨mem_dbInsert_self _ _ _, ?_⟩) hd
  show List.isPrefixOf (strBytes ("a" ++ ":")) (storeKeyBytes "a:b" "c") = true
  decide

end StorageServer
